import Mathlib

/-!
Verification of `src/fetch-blossom-servers.js` (nubst/blossom-servers).

The development shallowly embeds the program's three layers:

* the event parser `parseBlossomServer` over a JSON value model
  (JavaScript `undefined` and `null` are collapsed into one `Json.null`
  constructor: the program never distinguishes them — both are falsy,
  both make property access throw, and neither is ever compared with
  `===` against another nullish value);
* the per-relay WebSocket client `queryRelay`, modelled as a state
  machine folded over a trace of connection events;
* the merge/dedup/sort step of `fetchBlossomServers`, modelled over
  typed server records with a JS-`Map`-faithful association list
  (insertion order kept, `set` on an existing key replaces in place)
  and a stable descending sort (JS `Array.prototype.sort` is stable).
-/

namespace Blossom

/-- JSON-like values as delivered by `JSON.parse` plus object-model holes:
`null` stands for both JavaScript `null` and `undefined` (observationally
equal throughout this program). -/
inductive Json where
  | null : Json
  | bool : Bool → Json
  | num : Int → Json
  | str : String → Json
  | arr : List Json → Json
  | obj : List (String × Json) → Json

/-- JavaScript property access `j[k]`: throws on nullish receivers,
looks the key up on objects, yields `undefined` (here `null`) elsewhere. -/
def Json.getField (j : Json) (k : String) : Except String Json :=
  match j with
  | .null => .error ("cannot read properties of null (reading " ++ k ++ ")")
  | .obj fs => .ok ((fs.lookup k).getD .null)
  | _ => .ok .null

/-- JavaScript numeric indexing `j[i]`: throws on nullish receivers,
indexes arrays and strings, is an absent property elsewhere. -/
def Json.index (j : Json) (i : Nat) : Except String Json :=
  match j with
  | .null => .error "cannot read properties of null (indexing)"
  | .arr xs => .ok ((xs.get? i).getD .null)
  | .str s => .ok (match s.data.get? i with
      | some c => .str (String.mk [c])
      | none => .null)
  | .obj fs => .ok ((fs.lookup (toString i)).getD .null)
  | _ => .ok .null

/-- The JavaScript string method `startsWith`, as a character-level
prefix test (structural, so it evaluates definitionally). -/
def jsStartsWith (s p : String) : Bool :=
  p.data.isPrefixOf s.data

/-- JavaScript strict equality `===` restricted to the comparisons the
program performs (a value against a string literal); arrays and objects
compare by reference, modelled as `false`. -/
def Json.seq (a b : Json) : Bool :=
  match a, b with
  | .null, .null => true
  | .bool x, .bool y => x == y
  | .num x, .num y => x == y
  | .str x, .str y => x == y
  | _, _ => false

/-- JavaScript truthiness. -/
def Json.truthy : Json → Bool
  | .null => false
  | .bool b => b
  | .num n => n != 0
  | .str s => s ≠ ""
  | .arr _ => true
  | .obj _ => true

/-- `Array.prototype.find`: throws when the receiver is not an array
(the callback itself may throw); returns `undefined` (here `null`) when
no element matches. -/
def jsFindAux (p : Json → Except String Bool) : List Json → Except String Json
  | [] => .ok .null
  | x :: xs => do
    let b ← p x
    if b then .ok x else jsFindAux p xs

/-- `j.find(p)` with JavaScript receiver semantics. -/
def jsFind (j : Json) (p : Json → Except String Bool) : Except String Json :=
  match j with
  | .arr xs => jsFindAux p xs
  | _ => .error "find is not a function"

/-- The callback `tag => tag[0] === k` used by `parseBlossomServer`
(with `k` one of `"d"`, `"name"`, `"description"`). -/
def tagPred (k : String) (tag : Json) : Except String Bool := do
  let t0 ← tag.index 0
  .ok (t0.seq (.str k))

/-- The record object built by `parseBlossomServer`; `url` is a string by
construction (only strings pass `.startsWith`), the remaining fields are
copied verbatim from the event. -/
structure JSRecord where
  url : String
  name : Json
  description : Json
  pubkey : Json
  created_at : Json
  event_id : Json

/-- The body of `parseBlossomServer`'s `try` block: each JavaScript
runtime error is an `Except.error`. -/
def parseBody (event : Json) : Except String (Option JSRecord) := do
  let tags ← event.getField "tags"
  let dTag ← jsFind tags (tagPred "d")
  if !dTag.truthy then .ok none else do
  let d1 ← dTag.index 1
  if !d1.truthy then .ok none else
  match d1 with
  | .str serverUrl =>
    if !(jsStartsWith serverUrl "https://") then .ok none else do
      let nameTag ← jsFind tags (tagPred "name")
      let descTag ← jsFind tags (tagPred "description")
      let nameVal ← if nameTag.truthy then nameTag.index 1 else .ok Json.null
      let descVal ← if descTag.truthy then descTag.index 1 else .ok Json.null
      let pk ← event.getField "pubkey"
      let ca ← event.getField "created_at"
      let eid ← event.getField "id"
      .ok (some { url := serverUrl, name := nameVal, description := descVal,
                  pubkey := pk, created_at := ca, event_id := eid })
  | _ => .error "serverUrl.startsWith is not a function"

/-- `parseBlossomServer`: the `try`/`catch` wrapper — any thrown error is
logged and turned into `null` (no record). -/
def parseBlossomServer (event : Json) : Option JSRecord :=
  match parseBody event with
  | .ok r => r
  | .error _ => none

/-- A structurally well-formed Nostr event, as assumed by the relay
protocol spec: `tags` is a list of string lists. -/
structure NEvent where
  tags : List (List String)
  pubkey : String
  created_at : Int
  id : String

/-- The JSON value a well-formed event arrives as. -/
def encodeTag (t : List String) : Json :=
  .arr (t.map .str)

/-- Encode a well-formed event into its JSON transport form. -/
def encodeEvent (e : NEvent) : Json :=
  .obj [("tags", .arr (e.tags.map encodeTag)),
        ("pubkey", .str e.pubkey),
        ("created_at", .num e.created_at),
        ("id", .str e.id)]

/-- First tag labelled `k` in a well-formed tag list (the structural
counterpart of the callback `tag => tag[0] === k`). -/
def findTag (tags : List (List String)) (k : String) : Option (List String) :=
  tags.find? (fun t => match t with | [] => false | s :: _ => s == k)

/-- Value of the first `"d"` tag of a well-formed event, when any. -/
def dValue (e : NEvent) : Option String :=
  (findTag e.tags "d").bind (fun t => t.get? 1)

/-- Optional-metadata lookup as `parseBlossomServer` performs it:
`null` when the tag is missing or lacks a second element. -/
def optTagVal (tags : List (List String)) (k : String) : Json :=
  match findTag tags k with
  | none => Json.null
  | some t =>
    match t.get? 1 with
    | some s => Json.str s
    | none => Json.null

/-- Reference form of the parser on well-formed events, proved below to
agree with running `parseBlossomServer` on the encoded event. -/
def parseStructured (e : NEvent) : Option JSRecord :=
  match findTag e.tags "d" with
  | none => none
  | some dt =>
    match dt.get? 1 with
    | none => none
    | some u =>
      if u = "" then none
      else if jsStartsWith u "https://" then
        some { url := u, name := optTagVal e.tags "name",
               description := optTagVal e.tags "description",
               pubkey := .str e.pubkey, created_at := .num e.created_at,
               event_id := .str e.id }
      else none

/-- The two ways `queryRelay`'s promise can settle. -/
inductive Settled where
  | resolved : List JSRecord → Settled
  | rejected : String → Settled

/-- Mutable state of one `queryRelay` invocation: the `servers`
accumulator, whether the promise has settled (and how), and whether the
per-relay timer is still armed. -/
structure RelayState where
  servers : List JSRecord
  settled : Option Settled
  timerActive : Bool

/-- A promise settles exactly once: later `resolve`/`reject` calls are
no-ops. -/
def settleWith (st : RelayState) (o : Settled) : RelayState :=
  if st.settled.isSome then st else { st with settled := some o }

/-- Externally observable connection events driving `queryRelay`'s
handlers, in arrival order. `wsMessage none` is a frame whose payload
`JSON.parse` rejects. -/
inductive ConnEvent where
  | wsOpen : ConnEvent
  | wsMessage : Option Json → ConnEvent
  | wsError : String → ConnEvent
  | wsClose : ConnEvent
  | timerFire : ConnEvent

/-- Body of the `message` handler's `try` block: route `EVENT` frames for
this subscription through the parser, finalize on `EOSE`. -/
def handleMessage (subId : String) (st : RelayState) (m : Json) :
    Except String RelayState := do
  let m0 ← m.index 0
  let st1 ←
    if m0.seq (.str "EVENT") then do
      let m1 ← m.index 1
      if m1.seq (.str subId) then do
        let ev ← m.index 2
        match parseBlossomServer ev with
        | some r => .ok { st with servers := st.servers ++ [r] }
        | none => .ok st
      else .ok st
    else .ok st
  if m0.seq (.str "EOSE") then do
    let m1 ← m.index 1
    if m1.seq (.str subId) then
      .ok (settleWith { st1 with timerActive := false } (.resolved st1.servers))
    else .ok st1
  else .ok st1

/-- One step of `queryRelay`'s event handlers. A `message` decode error
is swallowed (logged) and the connection continues; `error` clears the
timer and rejects; `close` clears the timer and resolves with the
accumulated list; the timer, when still armed, resolves likewise. -/
def relayStep (subId : String) (st : RelayState) (e : ConnEvent) : RelayState :=
  match e with
  | .wsOpen => st
  | .wsMessage none => st
  | .wsMessage (some m) =>
    match handleMessage subId st m with
    | .ok st1 => st1
    | .error _ => st
  | .wsError msg =>
    settleWith { st with timerActive := false }
      (.rejected ("WebSocket error: " ++ msg))
  | .wsClose => settleWith { st with timerActive := false } (.resolved st.servers)
  | .timerFire =>
    if st.timerActive then
      settleWith { st with timerActive := false } (.resolved st.servers)
    else st

/-- Initial state of a `queryRelay` call: empty accumulator, pending
promise, timer armed. -/
def initRelayState : RelayState :=
  { servers := [], settled := none, timerActive := true }

/-- Run one `queryRelay` invocation over a trace of connection events. -/
def queryRelay (subId : String) (trace : List ConnEvent) : RelayState :=
  trace.foldl (relayStep subId) initRelayState

/-- What `fetchBlossomServers` sees for one relay:
`queryRelay(relay, timeout).catch(err => [])` — a rejection becomes an
empty list; `none` is a promise that never settled. -/
def orchestratorResult (st : RelayState) : Option (List JSRecord) :=
  match st.settled with
  | some (.resolved l) => some l
  | some (.rejected _) => some []
  | none => none

/-- A server record as consumed by the merge step (the data model's
`ServerRecord`): `created_at` is the integer event timestamp. -/
structure ServerRecord where
  url : String
  name : Option String
  description : Option String
  pubkey : String
  created_at : Int
  event_id : String
deriving DecidableEq

/-- `servers.get(url)` on the insertion-ordered backing list of the JS
`Map`. -/
def mapGet (m : List ServerRecord) (u : String) : Option ServerRecord :=
  m.find? (fun r => r.url == u)

/-- `servers.set(s.url, s)` when the key is already present: the entry is
replaced in place, keeping its position. -/
def mapSetReplace (m : List ServerRecord) (s : ServerRecord) : List ServerRecord :=
  m.map (fun r => if r.url == s.url then s else r)

/-- One iteration of the merge loop: keep the incoming record iff there
is no entry for its url yet or it is strictly newer. -/
def mergeStep (m : List ServerRecord) (s : ServerRecord) : List ServerRecord :=
  match mapGet m s.url with
  | none => m ++ [s]
  | some existing =>
    if s.created_at > existing.created_at then mapSetReplace m s else m

/-- The whole merge loop over all per-relay result lists, in order. -/
def mergeMap (results : List (List ServerRecord)) : List ServerRecord :=
  (results.flatten).foldl mergeStep []

/-- Merge-loop conflict resolution folded over one url's records: the
incoming record wins only when strictly newer. -/
def pickAcc (acc : Option ServerRecord) (s : ServerRecord) : Option ServerRecord :=
  match acc with
  | none => some s
  | some a => some (if s.created_at > a.created_at then s else a)

/-- Running maximum of `created_at` over a record list. -/
def tstep (t : Option Int) (s : ServerRecord) : Option Int :=
  some (match t with | none => s.created_at | some m => max m s.created_at)

/-- Stable insertion of a record into a list sorted descending by
`created_at`; ties keep the already-present element first, as a stable
sort does. -/
def insertByTime (s : ServerRecord) : List ServerRecord → List ServerRecord
  | [] => [s]
  | b :: t =>
    if b.created_at > s.created_at then b :: insertByTime s t else s :: b :: t

/-- Stable descending sort by `created_at`, modelling
`.sort((a, b) => b.created_at - a.created_at)` (JS sort is stable). -/
def sortByTimeDesc : List ServerRecord → List ServerRecord
  | [] => []
  | a :: t => insertByTime a (sortByTimeDesc t)

/-- `Array.from(servers.values()).sort(...)`: the merged, deduplicated,
descending-sorted record list. -/
def mergeRecords (results : List (List ServerRecord)) : List ServerRecord :=
  sortByTimeDesc (mergeMap results)

/-- `sortedServers`: the final output of the merge, projected to urls. -/
def merge (results : List (List ServerRecord)) : List String :=
  (mergeRecords results).map (fun r => r.url)

/-- The four hard-coded core relays. -/
def coreRelays : List String :=
  ["wss://relay.damus.io", "wss://nos.lol", "wss://relay.nostr.band",
   "wss://relay.primal.net"]

/-- `maxAdditional` — cap on sampled extra relays. -/
def maxAdditional : Nat := 16

/-- `concurrency` — batch size of the orchestrator loop. -/
def concurrency : Nat := 6

/-- The filtered candidate pool from the nostr.watch response: string
entries with the `wss://` scheme that are not core relays. -/
def additionalRelays (online : List Json) : List String :=
  (online.filterMap (fun j => match j with | .str s => some s | _ => none)).filter
    (fun r => jsStartsWith r "wss://" && !(coreRelays.contains r))

/-- `allRelays` on the successful-bootstrap path: the core relays
followed by at most `maxAdditional` sampled candidates (`shuffled` is the
randomly permuted candidate pool). -/
def allRelaysOf (shuffled : List String) : List String :=
  coreRelays ++ shuffled.take maxAdditional

/-- `allRelays` when the nostr.watch bootstrap fails: just the core
relays. -/
def allRelaysFallback : List String := coreRelays

/-- The batching loop `for (let i = 0; i < n; i += concurrency)`,
abstracted over the chunk size `c`; the program instantiates `c` with
`concurrency = 6`. -/
def chunksOf (c : Nat) (l : List α) : List (List α) :=
  if hstop : l.isEmpty || c == 0 then []
  else l.take c :: chunksOf c (l.drop c)
termination_by l.length
decreasing_by
  simp only [Bool.or_eq_true, List.isEmpty_iff, beq_iff_eq, not_or] at hstop
  obtain ⟨hl, hc⟩ := hstop
  have : 0 < l.length := List.length_pos.mpr hl
  simp only [List.length_drop]
  omega

/-- Bind on an `Except.ok` steps to the continuation. -/
theorem ok_bind {ε α β : Type} (a : α) (f : α → Except ε β) :
    (Except.ok a : Except ε α) >>= f = f a := rfl

/-- The tag callback on an encoded tag never throws and tests its first
element. -/
theorem tagPred_encodeTag (k : String) (t : List String) :
    tagPred k (encodeTag t) =
      .ok (match t with | [] => false | s :: _ => s == k) := by
  cases t <;> rfl

/-- `Array.prototype.find` on an encoded tag list computes `findTag`. -/
theorem jsFindAux_encode (k : String) (tags : List (List String)) :
    jsFindAux (tagPred k) (tags.map encodeTag) =
      .ok (match findTag tags k with
           | none => Json.null
           | some t => encodeTag t) := by
  induction tags with
  | nil => rfl
  | cons t ts ih =>
    cases t with
    | nil =>
      simpa [jsFindAux, tagPred_encodeTag, findTag, List.find?_cons,
             ok_bind] using ih
    | cons s rest =>
      by_cases h : (s == k) = true
      · simp [jsFindAux, tagPred_encodeTag, findTag, List.find?_cons, h,
              ok_bind]
      · simp only [Bool.not_eq_true] at h
        simpa [jsFindAux, tagPred_encodeTag, findTag, List.find?_cons, h,
               ok_bind] using ih

/-- Running the source parser on a well-formed encoded event is the
structural parse. -/
theorem parseBody_encodeEvent (e : NEvent) :
    parseBody (encodeEvent e) = .ok (parseStructured e) := by
  have hfind : ∀ k, jsFind (.arr (e.tags.map encodeTag)) (tagPred k) =
      .ok (match findTag e.tags k with
           | none => Json.null
           | some t => encodeTag t) := fun k => jsFindAux_encode k e.tags
  unfold parseBody parseStructured
  rw [show (encodeEvent e).getField "tags" =
        .ok (.arr (e.tags.map encodeTag)) from rfl]
  rw [ok_bind, hfind, ok_bind]
  cases hd : findTag e.tags "d" with
  | none => rfl
  | some dt =>
    rw [show (encodeTag dt).truthy = true from rfl]
    simp only [Bool.not_true, Bool.false_eq_true, if_false]
    rw [show (encodeTag dt).index 1 =
          .ok (((dt.map Json.str).get? 1).getD .null) from rfl]
    rw [List.get?_map, ok_bind]
    cases h1 : dt.get? 1 with
    | none => rfl
    | some u =>
      simp only [Option.map_some', Option.getD_some]
      by_cases hne : u = ""
      · subst hne; rfl
      · rw [show (Json.str u).truthy = true by simp [Json.truthy, hne]]
        simp only [Bool.not_true, Bool.false_eq_true, if_false]
        by_cases hsw : jsStartsWith u "https://" = true
        · rw [hsw]
          simp only [Bool.not_true, Bool.false_eq_true, if_false]
          rw [show (encodeEvent e).getField "pubkey" =
                .ok (.str e.pubkey) from rfl,
              show (encodeEvent e).getField "created_at" =
                .ok (.num e.created_at) from rfl,
              show (encodeEvent e).getField "id" =
                .ok (.str e.id) from rfl]
          simp only [hfind, ok_bind]
          cases hn : findTag e.tags "name" with
          | none =>
            cases hdesc : findTag e.tags "description" with
            | none => simp [Json.truthy, optTagVal, hn, hdesc, hne, hsw]
            | some t2 =>
              simp only [Json.truthy, encodeTag, Json.index, List.get?_map,
                         ok_bind, optTagVal, hn, hdesc]
              cases t2.get? 1 <;> simp [hne, hsw, ok_bind]
          | some t1 =>
            cases hdesc : findTag e.tags "description" with
            | none =>
              simp only [Json.truthy, encodeTag, Json.index, List.get?_map,
                         ok_bind, optTagVal, hn, hdesc]
              cases t1.get? 1 <;> simp [hne, hsw, ok_bind]
            | some t2 =>
              simp only [Json.truthy, encodeTag, Json.index, List.get?_map,
                         ok_bind, optTagVal, hn, hdesc]
              cases t1.get? 1 <;> cases t2.get? 1 <;> simp [hne, hsw, ok_bind]
        · simp only [Bool.not_eq_true] at hsw
          rw [hsw]
          simp [hne, hsw]

/-- Claim C5: for every valid event — one whose first "d" tag has a
non-empty second element starting with the secure-HTTP prefix — parse
returns a record with url equal to that "d" tag's second element,
eventId equal to the event's id, publisherId and createdAt copied
verbatim, and name/description equal to the first matching
"name"/"description" tag's second element if present, else null. -/
theorem C5_parse_valid (e : NEvent) (dt : List String) (u : String)
    (hd : findTag e.tags "d" = some dt) (hu : dt.get? 1 = some u)
    (hne : u ≠ "") (hsw : jsStartsWith u "https://" = true) :
    parseBlossomServer (encodeEvent e) =
      some { url := u, name := optTagVal e.tags "name",
             description := optTagVal e.tags "description",
             pubkey := .str e.pubkey, created_at := .num e.created_at,
             event_id := .str e.id } := by
  have hps : parseStructured e =
      some { url := u, name := optTagVal e.tags "name",
             description := optTagVal e.tags "description",
             pubkey := Json.str e.pubkey, created_at := Json.num e.created_at,
             event_id := Json.str e.id } := by
    unfold parseStructured
    rw [hd, List.get?_eq_getElem?] at *
    rw [hd]
    simp [hu, hne, hsw]
  unfold parseBlossomServer
  rw [parseBody_encodeEvent, hps]

/-- Witness for C5 at a concrete valid event. -/
theorem C5_parse_valid_witness :
    parseBlossomServer
        (encodeEvent ⟨[["d", "https://x.example"], ["name", "X"]], "pk", 7, "e1"⟩) =
      some { url := "https://x.example",
             name := optTagVal [["d", "https://x.example"], ["name", "X"]] "name",
             description :=
               optTagVal [["d", "https://x.example"], ["name", "X"]] "description",
             pubkey := .str "pk", created_at := .num 7, event_id := .str "e1" } :=
  C5_parse_valid ⟨[["d", "https://x.example"], ["name", "X"]], "pk", 7, "e1"⟩
    ["d", "https://x.example"] "https://x.example" rfl rfl (by decide) (by decide)

/-- Claim C6: every event lacking a "d" tag, or whose first "d" tag has
an empty or missing second element, or whose "d"-tag value does not
start with "https://", parses to nothing. -/
theorem C6_parse_rejects (e : NEvent)
    (h : ∀ u, dValue e = some u → u = "" ∨ jsStartsWith u "https://" = false) :
    parseBlossomServer (encodeEvent e) = none := by
  have hps : parseStructured e = none := by
    unfold parseStructured
    cases hd : findTag e.tags "d" with
    | none => rfl
    | some dt =>
      cases hu : dt.get? 1 with
      | none =>
        rw [List.get?_eq_getElem?] at hu
        simp [hu]
      | some u =>
        rw [List.get?_eq_getElem?] at hu
        rcases h u (by simp [dValue, hd, hu]) with h1 | h2
        · simp [hu, h1]
        · simp [hu, h2, ite_self]
  unfold parseBlossomServer
  rw [parseBody_encodeEvent, hps]

/-- Witness for C6 at a concrete event whose "d" value is not
secure-HTTP. -/
theorem C6_parse_rejects_witness :
    parseBlossomServer (encodeEvent ⟨[["d", "http://x.example"]], "p", 1, "i"⟩) =
      none :=
  C6_parse_rejects ⟨[["d", "http://x.example"]], "p", 1, "i"⟩ (fun u hu => by
    have hu' : "http://x.example" = u := by
      simpa [dValue, findTag] using hu
    subst hu'
    exact Or.inr (by decide))

/-- Claim C7: parse is total over arbitrary raw events — for every input
(including events with missing fields or non-array tags) it returns a
value (a record or nothing), and every error thrown inside the body is
caught and turned into nothing, so a single malformed event cannot abort
a relay's processing. -/
theorem C7_parse_total (j : Json) :
    (parseBlossomServer j = none ∨ ∃ r, parseBlossomServer j = some r) ∧
    (∀ msg, parseBody j = .error msg → parseBlossomServer j = none) := by
  constructor
  · cases h : parseBlossomServer j with
    | none => exact Or.inl rfl
    | some r => exact Or.inr ⟨r, rfl⟩
  · intro msg hmsg
    unfold parseBlossomServer
    rw [hmsg]

/-- Witness for C7 at an event whose `tags` field is not an array (the
body throws, the parser returns nothing). -/
theorem C7_parse_total_witness :
    parseBlossomServer (.obj [("tags", .num 3)]) = none :=
  (C7_parse_total (.obj [("tags", .num 3)])).2 "find is not a function" rfl

/-- Lookup after an in-place replace: the replaced key now maps to the
new record, every other key is untouched. -/
theorem mapGet_mapSetReplace (m : List ServerRecord) (s : ServerRecord)
    (u : String) :
    mapGet (mapSetReplace m s) u =
      if s.url = u then (mapGet m s.url).map (fun _ => s) else mapGet m u := by
  induction m with
  | nil => by_cases hsu : s.url = u <;> simp [mapGet, mapSetReplace, hsu]
  | cons r t ih =>
    simp only [mapSetReplace, List.map_cons] at ih ⊢
    by_cases hr : r.url = s.url
    · by_cases hsu : s.url = u
      · simp [mapGet, List.find?_cons, hr, hsu]
      · have hru : ¬ r.url = u := fun h => hsu (hr ▸ h)
        simpa [mapGet, List.find?_cons, hr, hsu, hru] using ih
    · by_cases hru : r.url = u
      · have hsu : ¬ s.url = u := fun h => hr (h ▸ hru)
        have hus : ¬ u = s.url := fun h => hsu h.symm
        simp [mapGet, List.find?_cons, hr, hru, hsu, hus]
      · by_cases hsu : s.url = u <;>
          simpa [mapGet, List.find?_cons, hr, hru, hsu] using ih

/-- Lookup after appending a fresh entry. -/
theorem mapGet_append_single (m : List ServerRecord) (s : ServerRecord)
    (u : String) :
    mapGet (m ++ [s]) u =
      match mapGet m u with
      | some r => some r
      | none => if s.url = u then some s else none := by
  induction m with
  | nil => by_cases hsu : s.url = u <;> simp [mapGet, List.find?_cons, hsu]
  | cons r t ih =>
    by_cases hru : r.url = u
    · simp [mapGet, List.find?_cons, hru]
    · simpa [mapGet, List.find?_cons, hru] using ih

/-- Effect of one merge-loop iteration on lookups: the incoming record's
key is resolved through `pickAcc`, other keys are untouched. -/
theorem mapGet_mergeStep (m : List ServerRecord) (s : ServerRecord)
    (u : String) :
    mapGet (mergeStep m s) u =
      if s.url = u then pickAcc (mapGet m u) s else mapGet m u := by
  unfold mergeStep
  cases hg : mapGet m s.url with
  | none =>
    rw [mapGet_append_single]
    by_cases hsu : s.url = u
    · subst hsu
      simp [hg, pickAcc]
    · simp [hsu]
      cases mapGet m u <;> rfl
  | some a =>
    by_cases ht : s.created_at > a.created_at
    · simp only [ht, if_true]
      rw [mapGet_mapSetReplace]
      by_cases hsu : s.url = u
      · subst hsu
        simp [hg, pickAcc, ht]
      · simp [hsu]
    · simp only [ht, if_false]
      by_cases hsu : s.url = u
      · subst hsu
        simp [hg, pickAcc, ht]
      · simp [hsu]

/-- Lookup in the whole merge loop folds `pickAcc` over exactly the
records carrying the looked-up url, in processing order. -/
theorem mapGet_foldl (l : List ServerRecord) (m : List ServerRecord)
    (u : String) :
    mapGet (l.foldl mergeStep m) u =
      (l.filter (fun s => s.url == u)).foldl pickAcc (mapGet m u) := by
  induction l generalizing m with
  | nil => rfl
  | cons s t ih =>
    rw [List.foldl_cons, ih, List.filter_cons]
    by_cases hsu : s.url = u
    · simp [hsu, mapGet_mergeStep]
    · simp [hsu, mapGet_mergeStep]

/-- Records in the map after one iteration come from the map before it
or are the incoming record. -/
theorem mem_mergeStep (m : List ServerRecord) (s r : ServerRecord)
    (h : r ∈ mergeStep m s) : r ∈ m ∨ r = s := by
  unfold mergeStep at h
  cases hg : mapGet m s.url with
  | none =>
    rw [hg] at h
    rcases List.mem_append.mp h with h1 | h1
    · exact Or.inl h1
    · exact Or.inr (List.mem_singleton.mp h1)
  | some a =>
    rw [hg] at h
    dsimp only at h
    by_cases ht : s.created_at > a.created_at
    · rw [if_pos ht] at h
      rcases List.mem_map.mp h with ⟨x, hx, hxr⟩
      by_cases hxu : (x.url == s.url) = true
      · rw [if_pos hxu] at hxr
        exact Or.inr hxr.symm
      · rw [if_neg hxu] at hxr
        exact Or.inl (hxr ▸ hx)
    · rw [if_neg ht] at h
      exact Or.inl h

/-- Records in the map after the whole loop come from the initial map or
from the processed list. -/
theorem mem_foldl_mergeStep (l : List ServerRecord) (m : List ServerRecord)
    (r : ServerRecord) (h : r ∈ l.foldl mergeStep m) : r ∈ m ∨ r ∈ l := by
  induction l generalizing m with
  | nil => exact Or.inl h
  | cons s t ih =>
    rw [List.foldl_cons] at h
    rcases ih (mergeStep m s) h with h1 | h1
    · rcases mem_mergeStep m s r h1 with h2 | h2
      · exact Or.inl h2
      · exact Or.inr (h2 ▸ List.mem_cons_self s t)
    · exact Or.inr (List.mem_cons_of_mem s h1)

/-- One merge-loop iteration keeps the key list duplicate-free. -/
theorem keys_nodup_mergeStep (m : List ServerRecord) (s : ServerRecord)
    (h : (m.map (fun r => r.url)).Nodup) :
    ((mergeStep m s).map (fun r => r.url)).Nodup := by
  unfold mergeStep
  cases hg : mapGet m s.url with
  | none =>
    rw [List.map_append]
    refine List.Nodup.append h (List.nodup_singleton _) ?_
    intro u hu hu'
    rcases List.mem_map.mp hu with ⟨x, hx, hxu⟩
    rcases List.mem_singleton.mp hu' with rfl
    have := List.find?_eq_none.mp hg x hx
    simp only [beq_iff_eq] at this
    exact this hxu
  | some a =>
    dsimp only
    by_cases ht : s.created_at > a.created_at
    · rw [if_pos ht]
      have : (mapSetReplace m s).map (fun r => r.url) =
          m.map (fun r => r.url) := by
        unfold mapSetReplace
        rw [List.map_map]
        refine List.map_congr_left ?_
        intro x _
        by_cases hx : (x.url == s.url) = true
        · simp only [Function.comp_apply, hx, if_true]
          exact (beq_iff_eq.mp hx).symm
        · have hx' : ¬ x.url = s.url := by simpa using hx
          simp [Function.comp_apply, hx, hx']
      rw [this]
      exact h
    · rw [if_neg ht]
      exact h

/-- The merge loop keeps the key list duplicate-free. -/
theorem keys_nodup_foldl (l : List ServerRecord) (m : List ServerRecord)
    (h : (m.map (fun r => r.url)).Nodup) :
    (((l.foldl mergeStep m)).map (fun r => r.url)).Nodup := by
  induction l generalizing m with
  | nil => exact h
  | cons s t ih => exact ih (mergeStep m s) (keys_nodup_mergeStep m s h)

/-- A successful lookup returns a member of the map carrying the
looked-up url. -/
theorem mapGet_eq_some (m : List ServerRecord) (u : String)
    (r : ServerRecord) (h : mapGet m u = some r) : r ∈ m ∧ r.url = u := by
  refine ⟨List.mem_of_find?_eq_some h, ?_⟩
  have := List.find?_some h
  exact beq_iff_eq.mp this

/-- In a map with duplicate-free keys, each member is found by looking
up its url. -/
theorem mapGet_of_mem (m : List ServerRecord) (r : ServerRecord)
    (hn : (m.map (fun x => x.url)).Nodup) (h : r ∈ m) :
    mapGet m r.url = some r := by
  induction m with
  | nil => cases h
  | cons a t ih =>
    rcases List.mem_cons.mp h with rfl | hmem
    · simp [mapGet, List.find?_cons]
    · have hne : ¬ (a.url == r.url) = true := by
        intro hb
        have : r.url ∈ t.map (fun x => x.url) :=
          List.mem_map.mpr ⟨r, hmem, rfl⟩
        rw [List.map_cons, List.nodup_cons] at hn
        exact hn.1 ((beq_iff_eq.mp hb) ▸ this)
      rw [List.map_cons, List.nodup_cons] at hn
      simpa [mapGet, List.find?_cons, hne] using ih hn.2 hmem

/-- The `created_at` of the per-url fold is the running maximum of the
processed records' timestamps. -/
theorem foldl_pickAcc_time (l : List ServerRecord)
    (acc : Option ServerRecord) :
    (l.foldl pickAcc acc).map (fun r => r.created_at) =
      l.foldl tstep (acc.map (fun r => r.created_at)) := by
  induction l generalizing acc with
  | nil => rfl
  | cons s t ih =>
    rw [List.foldl_cons, List.foldl_cons, ih]
    congr 1
    cases acc with
    | none => rfl
    | some a =>
      simp only [pickAcc, tstep, Option.map_some']
      by_cases ht : s.created_at > a.created_at
      · simp [ht, max_eq_right (le_of_lt ht)]
      · simp [ht, max_eq_left (not_lt.mp ht)]

/-- The running maximum is insensitive to the processing order. -/
theorem foldl_tstep_perm (l₁ l₂ : List ServerRecord) (hp : l₁.Perm l₂) :
    ∀ acc, l₁.foldl tstep acc = l₂.foldl tstep acc := by
  induction hp with
  | nil => intro acc; rfl
  | cons x _ ih =>
    intro acc
    rw [List.foldl_cons, List.foldl_cons, ih]
  | swap x y l =>
    intro acc
    rw [List.foldl_cons, List.foldl_cons, List.foldl_cons, List.foldl_cons]
    congr 1
    cases acc with
    | none => simp [tstep, max_comm]
    | some m => simp [tstep, max_assoc, max_comm x.created_at y.created_at]
  | trans _ _ ih₁ ih₂ =>
    intro acc
    rw [ih₁, ih₂]

/-- The per-url fold returns one of the processed records (or keeps the
accumulator). -/
theorem foldl_pickAcc_mem (l : List ServerRecord) (acc : Option ServerRecord)
    (r : ServerRecord) (h : l.foldl pickAcc acc = some r) :
    acc = some r ∨ r ∈ l := by
  induction l generalizing acc with
  | nil => exact Or.inl h
  | cons s t ih =>
    rw [List.foldl_cons] at h
    rcases ih (pickAcc acc s) h with h1 | h1
    · cases acc with
      | none =>
        simp only [pickAcc] at h1
        exact Or.inr (by rw [← Option.some_inj.mp h1]; exact List.mem_cons_self s t)
      | some a =>
        simp only [pickAcc] at h1
        by_cases ht : s.created_at > a.created_at
        · rw [if_pos ht] at h1
          exact Or.inr ((Option.some_inj.mp h1) ▸ List.mem_cons_self s t)
        · rw [if_neg ht] at h1
          exact Or.inl (congrArg some (Option.some_inj.mp h1))
    · exact Or.inr (List.mem_cons_of_mem s h1)

/-- Folding the running maximum from a defined accumulator can only grow
it. -/
theorem foldl_tstep_ge_acc (l : List ServerRecord) (v : Int) :
    ∃ t, l.foldl tstep (some v) = some t ∧ v ≤ t := by
  induction l generalizing v with
  | nil => exact ⟨v, rfl, le_refl v⟩
  | cons s t ih =>
    rw [List.foldl_cons]
    simp only [tstep]
    rcases ih (max v s.created_at) with ⟨w, hw, hle⟩
    exact ⟨w, hw, le_trans (le_max_left _ _) hle⟩

/-- Every processed record's timestamp is bounded by the running
maximum. -/
theorem foldl_tstep_ge (l : List ServerRecord) (acc : Option Int)
    (s : ServerRecord) (hs : s ∈ l) :
    ∃ t, l.foldl tstep acc = some t ∧ s.created_at ≤ t := by
  induction l generalizing acc with
  | nil => cases hs
  | cons x t ih =>
    rw [List.foldl_cons]
    rcases List.mem_cons.mp hs with rfl | hmem
    · cases acc with
      | none =>
        simp only [tstep]
        exact foldl_tstep_ge_acc t s.created_at
      | some m =>
        simp only [tstep]
        rcases foldl_tstep_ge_acc t (max m s.created_at) with ⟨w, hw, hle⟩
        exact ⟨w, hw, le_trans (le_max_right _ _) hle⟩
    · exact ih (tstep acc x) hmem

/-- Stable insertion permutes the inserted element in. -/
theorem insertByTime_perm (s : ServerRecord) (l : List ServerRecord) :
    (insertByTime s l).Perm (s :: l) := by
  induction l with
  | nil => exact List.Perm.refl _
  | cons b t ih =>
    unfold insertByTime
    by_cases hb : b.created_at > s.created_at
    · rw [if_pos hb]
      exact (ih.cons b).trans (List.Perm.swap s b t)
    · rw [if_neg hb]

/-- The stable sort permutes its input. -/
theorem sortByTimeDesc_perm (l : List ServerRecord) :
    (sortByTimeDesc l).Perm l := by
  induction l with
  | nil => exact List.Perm.refl _
  | cons a t ih =>
    unfold sortByTimeDesc
    exact (insertByTime_perm a (sortByTimeDesc t)).trans (ih.cons a)

/-- Stable insertion preserves descending order. -/
theorem sorted_insertByTime (s : ServerRecord) (l : List ServerRecord)
    (h : l.Pairwise (fun a b => b.created_at ≤ a.created_at)) :
    (insertByTime s l).Pairwise (fun a b => b.created_at ≤ a.created_at) := by
  induction l with
  | nil => simp [insertByTime]
  | cons b t ih =>
    rw [List.pairwise_cons] at h
    unfold insertByTime
    by_cases hb : b.created_at > s.created_at
    · rw [if_pos hb, List.pairwise_cons]
      refine ⟨?_, ih h.2⟩
      intro x hx
      rcases List.mem_cons.mp ((insertByTime_perm s t).mem_iff.mp hx) with rfl | hx'
      · exact le_of_lt hb
      · exact h.1 x hx'
    · rw [if_neg hb, List.pairwise_cons]
      refine ⟨?_, List.pairwise_cons.mpr h⟩
      intro x hx
      rcases List.mem_cons.mp hx with rfl | hx'
      · exact not_lt.mp hb
      · exact le_trans (h.1 x hx') (not_lt.mp hb)

/-- The sort output is descending by `created_at`. -/
theorem sorted_sortByTimeDesc (l : List ServerRecord) :
    (sortByTimeDesc l).Pairwise (fun a b => b.created_at ≤ a.created_at) := by
  induction l with
  | nil => simp [sortByTimeDesc]
  | cons a t ih => exact sorted_insertByTime a (sortByTimeDesc t) ih

/-- A merge iteration whose incoming record is not strictly newer than
the stored one is a no-op. -/
theorem mergeStep_eq_self (m : List ServerRecord) (s : ServerRecord)
    (h : ∃ a, mapGet m s.url = some a ∧ s.created_at ≤ a.created_at) :
    mergeStep m s = m := by
  obtain ⟨a, hg, hle⟩ := h
  unfold mergeStep
  rw [hg]
  dsimp only
  rw [if_neg (not_lt.mpr hle)]

/-- Folding no-op iterations leaves the map unchanged. -/
theorem foldl_mergeStep_id (l : List ServerRecord) (m : List ServerRecord)
    (h : ∀ s ∈ l, mergeStep m s = m) : l.foldl mergeStep m = m := by
  induction l with
  | nil => rfl
  | cons s t ih =>
    rw [List.foldl_cons, h s (List.mem_cons_self s t)]
    exact ih (fun x hx => h x (List.mem_cons_of_mem s hx))

/-- After the merge loop, every input record's url maps to an entry at
least as new as that record. -/
theorem mergeMap_time_bound (rs : List (List ServerRecord))
    (s : ServerRecord) (hs : s ∈ rs.flatten) :
    ∃ a, mapGet (mergeMap rs) s.url = some a ∧
      s.created_at ≤ a.created_at := by
  have hfilter : s ∈ rs.flatten.filter (fun x => x.url == s.url) :=
    List.mem_filter.mpr ⟨hs, by simp⟩
  have hfold : mapGet (mergeMap rs) s.url =
      (rs.flatten.filter (fun x => x.url == s.url)).foldl pickAcc none :=
    mapGet_foldl rs.flatten [] s.url
  rcases foldl_tstep_ge (rs.flatten.filter (fun x => x.url == s.url)) none s
      hfilter with ⟨t, ht, hle⟩
  cases hacc : (rs.flatten.filter (fun x => x.url == s.url)).foldl pickAcc none
    with
  | none =>
    have hti := foldl_pickAcc_time
      (rs.flatten.filter (fun x => x.url == s.url)) none
    rw [hacc] at hti
    simp only [Option.map_none'] at hti
    rw [ht] at hti
    cases hti
  | some a =>
    refine ⟨a, by rw [hfold, hacc], ?_⟩
    have hti := foldl_pickAcc_time
      (rs.flatten.filter (fun x => x.url == s.url)) none
    rw [hacc] at hti
    simp only [Option.map_none', Option.map_some'] at hti
    rw [ht] at hti
    rw [Option.some_inj.mp hti]
    exact hle

/-- Claim C8: merge is idempotent — merging the input concatenated with
itself yields the same output as merging the input once, both at the
record level and for the final url list. -/
theorem C8_merge_idempotent (rs : List (List ServerRecord)) :
    mergeRecords (rs ++ rs) = mergeRecords rs ∧
    merge (rs ++ rs) = merge rs := by
  have hmm : mergeMap (rs ++ rs) = mergeMap rs := by
    unfold mergeMap
    rw [List.flatten_append, List.foldl_append]
    exact foldl_mergeStep_id rs.flatten _
      (fun s hs => mergeStep_eq_self _ s (mergeMap_time_bound rs s hs))
  constructor
  · unfold mergeRecords
    rw [hmm]
  · unfold merge mergeRecords
    rw [hmm]

/-- In a map with duplicate-free keys, filtering by a stored key yields
exactly the stored entry. -/
theorem filter_url_eq_single (m : List ServerRecord) (u : String)
    (w : ServerRecord) (hn : (m.map (fun r => r.url)).Nodup)
    (hg : mapGet m u = some w) :
    m.filter (fun r => r.url == u) = [w] := by
  induction m with
  | nil => cases hg
  | cons a t ih =>
    rw [List.map_cons, List.nodup_cons] at hn
    by_cases ha : (a.url == u) = true
    · have hw : w = a := by
        unfold mapGet at hg
        rw [List.find?_cons, ha] at hg
        dsimp only at hg
        exact (Option.some_inj.mp hg).symm
      subst hw
      simp only [List.filter_cons, ha, if_true]
      have hnil : t.filter (fun r => r.url == u) = [] := by
        refine List.filter_eq_nil.mpr ?_
        intro x hx hxu
        have hxa : x.url = w.url := by
          rw [beq_iff_eq.mp hxu, beq_iff_eq.mp ha]
        exact hn.1 (hxa ▸ List.mem_map.mpr ⟨x, hx, rfl⟩)
      rw [hnil]
    · rw [Bool.not_eq_true] at ha
      have hg' : mapGet t u = some w := by
        unfold mapGet at hg ⊢
        rw [List.find?_cons, ha] at hg
        dsimp only at hg
        exact hg
      simp only [List.filter_cons, ha, Bool.false_eq_true, if_false]
      exact ih hn.2 hg'

/-- Claim C4: for any two input records sharing a url (and no others with
that url), merge retains exactly the one with the strictly greater
createdAt; on a tie exactly one is retained, namely the record processed
first. -/
theorem C4_newest_wins (rs : List (List ServerRecord)) (u : String)
    (r1 r2 : ServerRecord)
    (hf : rs.flatten.filter (fun r => r.url == u) = [r1, r2]) :
    (mergeRecords rs).filter (fun r => r.url == u) =
      [if r2.created_at > r1.created_at then r2 else r1] := by
  have h0 : mapGet (mergeMap rs) u =
      (rs.flatten.filter (fun s => s.url == u)).foldl pickAcc none :=
    mapGet_foldl rs.flatten [] u
  have hg : mapGet (mergeMap rs) u =
      some (if r2.created_at > r1.created_at then r2 else r1) := by
    rw [h0, hf]
    rfl
  have hn : ((mergeMap rs).map (fun r => r.url)).Nodup :=
    keys_nodup_foldl rs.flatten [] (by simp)
  have hfm := filter_url_eq_single (mergeMap rs) u _ hn hg
  have hp : ((sortByTimeDesc (mergeMap rs)).filter
      (fun r => r.url == u)).Perm
      ((mergeMap rs).filter (fun r => r.url == u)) :=
    (sortByTimeDesc_perm (mergeMap rs)).filter _
  rw [hfm] at hp
  unfold mergeRecords
  exact List.perm_singleton.mp hp

/-- Witness for C4 at two concrete records sharing a url with equal
timestamps: the first-processed record is the one retained. -/
theorem C4_newest_wins_witness :
    (mergeRecords [[⟨"https://u", none, none, "p", 5, "e1"⟩],
                   [⟨"https://u", none, none, "p", 5, "e2"⟩]]).filter
        (fun r => r.url == "https://u") =
      [⟨"https://u", none, none, "p", 5, "e1"⟩] := by
  rw [C4_newest_wins [[⟨"https://u", none, none, "p", 5, "e1"⟩],
                      [⟨"https://u", none, none, "p", 5, "e2"⟩]]
        "https://u" ⟨"https://u", none, none, "p", 5, "e1"⟩
        ⟨"https://u", none, none, "p", 5, "e2"⟩ (by rfl)]
  rfl

/-- Claim C3 (amended): the merged output is sorted descending by
createdAt — adjacent records may share a createdAt when their urls
differ, so the order is non-strict — and contains no two records with
the same url. -/
theorem C3_sorted_nodup (rs : List (List ServerRecord)) :
    (mergeRecords rs).Pairwise (fun a b => b.created_at ≤ a.created_at) ∧
    ((mergeRecords rs).map (fun r => r.url)).Nodup := by
  refine ⟨sorted_sortByTimeDesc (mergeMap rs), ?_⟩
  have hn : ((mergeMap rs).map (fun r => r.url)).Nodup :=
    keys_nodup_foldl rs.flatten [] (by simp)
  exact ((sortByTimeDesc_perm (mergeMap rs)).map
    (fun r => r.url)).nodup_iff.mpr hn

/-- Counterexample to C3 as stated: two records with distinct urls and
equal timestamps are adjacent in the output, so the sort is not strict. -/
theorem C3_counterexample :
    ¬ (mergeRecords [[⟨"https://a", none, none, "p", 5, "e1"⟩],
                     [⟨"https://b", none, none, "p", 5, "e2"⟩]]).Pairwise
        (fun a b => b.created_at < a.created_at) := by
  intro h
  have he : mergeRecords [[⟨"https://a", none, none, "p", 5, "e1"⟩],
      [⟨"https://b", none, none, "p", 5, "e2"⟩]] =
      [⟨"https://a", none, none, "p", 5, "e1"⟩,
       ⟨"https://b", none, none, "p", 5, "e2"⟩] := rfl
  rw [he] at h
  rcases List.pairwise_cons.mp h with ⟨h1, _⟩
  exact absurd (h1 _ (List.mem_singleton.mpr rfl)) (by decide)

/-- Entries of the merged map come from the flattened input. -/
theorem mergeMap_subset_flatten (rs : List (List ServerRecord))
    (r : ServerRecord) (h : r ∈ mergeMap rs) : r ∈ rs.flatten := by
  rcases mem_foldl_mergeStep rs.flatten [] r h with h1 | h1
  · cases h1
  · exact h1

/-- For a map with duplicate-free keys, `(url, created_at)` projections
are exactly the timestamped lookups. -/
theorem pair_mem_iff (m : List ServerRecord)
    (hn : (m.map (fun r => r.url)).Nodup) (u : String) (t : Int) :
    (u, t) ∈ m.map (fun r => (r.url, r.created_at)) ↔
      (mapGet m u).map (fun r => r.created_at) = some t := by
  constructor
  · intro hm
    rcases List.mem_map.mp hm with ⟨r, hr, heq⟩
    have h1 : r.url = u := congrArg Prod.fst heq
    have h2 : r.created_at = t := congrArg Prod.snd heq
    rw [← h1, mapGet_of_mem m r hn hr, Option.map_some', h2]
  · intro hm
    cases hg : mapGet m u with
    | none => rw [hg] at hm; cases hm
    | some r =>
      rw [hg, Option.map_some'] at hm
      rcases mapGet_eq_some m u r hg with ⟨hmem, hurl⟩
      exact List.mem_map.mpr ⟨r, hmem, by rw [hurl, Option.some_inj.mp hm]⟩

/-- The timestamp stored per url is insensitive to a permutation of the
flattened input. -/
theorem mergeMap_time_congr (rs rs' : List (List ServerRecord))
    (hp : rs'.flatten.Perm rs.flatten) (u : String) :
    (mapGet (mergeMap rs') u).map (fun r => r.created_at) =
      (mapGet (mergeMap rs) u).map (fun r => r.created_at) := by
  have h1 : mapGet (mergeMap rs') u =
      (rs'.flatten.filter (fun s => s.url == u)).foldl pickAcc none :=
    mapGet_foldl rs'.flatten [] u
  have h2 : mapGet (mergeMap rs) u =
      (rs.flatten.filter (fun s => s.url == u)).foldl pickAcc none :=
    mapGet_foldl rs.flatten [] u
  rw [h1, h2, foldl_pickAcc_time, foldl_pickAcc_time]
  exact foldl_tstep_perm _ _ (hp.filter _) _

/-- Duplicate-free keys make the `(url, created_at)` projection
duplicate-free. -/
theorem pairs_nodup (m : List ServerRecord)
    (hn : (m.map (fun r => r.url)).Nodup) :
    (m.map (fun r => (r.url, r.created_at))).Nodup := by
  have hmm : m.map (fun r => r.url) =
      (m.map (fun r => (r.url, r.created_at))).map Prod.fst := by
    rw [List.map_map]
    rfl
  rw [hmm] at hn
  exact hn.of_map

/-- When distinct urls never share a timestamp, a url-duplicate-free
descending record list projects to a strictly descending pair list. -/
theorem strict_pairs (X : List ServerRecord) (rs : List (List ServerRecord))
    (hn : (X.map (fun r => r.url)).Nodup)
    (hsub : ∀ r ∈ X, r ∈ rs.flatten)
    (hsorted : X.Pairwise (fun a b => b.created_at ≤ a.created_at))
    (hdist : ∀ a ∈ rs.flatten, ∀ b ∈ rs.flatten,
      a.created_at = b.created_at → a.url = b.url) :
    (X.map (fun r => (r.url, r.created_at))).Pairwise
      (fun p q => q.2 < p.2) := by
  rw [List.pairwise_map]
  have hne : X.Pairwise (fun a b => a.url ≠ b.url) :=
    List.pairwise_map.mp hn
  have hcomb := hsorted.and hne
  refine List.Pairwise.imp_of_mem ?_ hcomb
  intro a b ha hb hab
  rcases hab with ⟨hle, hneq⟩
  refine lt_of_le_of_ne hle ?_
  intro heq
  exact hneq (hdist a (hsub a ha) b (hsub b hb) heq.symm)

/-- Claim C2 (amended): merge is commutative with respect to the order of
its input whenever records with distinct urls have distinct createdAt
values — any permutation of the per-relay result lists then yields the
same final url output. (Records sharing both url and createdAt never
affect the url output, but distinct urls sharing a createdAt may be
emitted in an order-dependent sequence, see the counterexample.) -/
theorem C2_merge_perm_invariant (rs rs' : List (List ServerRecord))
    (hperm : rs'.Perm rs)
    (hdist : ∀ a ∈ rs.flatten, ∀ b ∈ rs.flatten,
      a.created_at = b.created_at → a.url = b.url) :
    merge rs' = merge rs := by
  have hflat : rs'.flatten.Perm rs.flatten := hperm.flatten
  have hn' : ((mergeMap rs').map (fun r => r.url)).Nodup :=
    keys_nodup_foldl rs'.flatten [] (by simp)
  have hn : ((mergeMap rs).map (fun r => r.url)).Nodup :=
    keys_nodup_foldl rs.flatten [] (by simp)
  have hpp : ((mergeMap rs').map (fun r => (r.url, r.created_at))).Perm
      ((mergeMap rs).map (fun r => (r.url, r.created_at))) := by
    refine (List.perm_ext_iff_of_nodup (pairs_nodup _ hn')
      (pairs_nodup _ hn)).mpr ?_
    rintro ⟨u, t⟩
    rw [pair_mem_iff _ hn' u t, pair_mem_iff _ hn u t,
        mergeMap_time_congr rs rs' hflat u]
  have hsp' := sortByTimeDesc_perm (mergeMap rs')
  have hsp := sortByTimeDesc_perm (mergeMap rs)
  have hpairs : ((sortByTimeDesc (mergeMap rs')).map
      (fun r => (r.url, r.created_at))).Perm
      ((sortByTimeDesc (mergeMap rs)).map
        (fun r => (r.url, r.created_at))) :=
    ((hsp'.map _).trans hpp).trans (hsp.map _).symm
  have hstr' := strict_pairs (sortByTimeDesc (mergeMap rs')) rs
    ((hsp'.map (fun r => r.url)).nodup_iff.mpr hn')
    (fun r hr => hflat.subset (mergeMap_subset_flatten rs' r (hsp'.subset hr)))
    (sorted_sortByTimeDesc _) hdist
  have hstr := strict_pairs (sortByTimeDesc (mergeMap rs)) rs
    ((hsp.map (fun r => r.url)).nodup_iff.mpr hn)
    (fun r hr => mergeMap_subset_flatten rs r (hsp.subset hr))
    (sorted_sortByTimeDesc _) hdist
  haveI : IsAntisymm (String × Int) (fun p q => q.2 < p.2) :=
    ⟨fun p q h1 h2 => absurd (lt_trans h1 h2) (lt_irrefl _)⟩
  have heq := List.eq_of_perm_of_sorted hpairs hstr' hstr
  have hu : ∀ (X : List ServerRecord), X.map (fun r => r.url) =
      (X.map (fun r => (r.url, r.created_at))).map Prod.fst := by
    intro X
    rw [List.map_map]
    rfl
  unfold merge mergeRecords
  rw [hu, hu, heq]

/-- Witness for the amended C2 at two records with distinct urls and
distinct timestamps. -/
theorem C2_merge_perm_invariant_witness :
    merge [[⟨"https://b", none, none, "p", 7, "e2"⟩],
           [⟨"https://a", none, none, "p", 5, "e1"⟩]] =
      merge [[⟨"https://a", none, none, "p", 5, "e1"⟩],
             [⟨"https://b", none, none, "p", 7, "e2"⟩]] :=
  C2_merge_perm_invariant _ _ (List.Perm.swap _ _ _) (by decide)

/-- Counterexample to C2 as stated: permuting two relays whose records
have distinct urls but equal timestamps changes the output order. -/
theorem C2_counterexample :
    ([[⟨"https://b", none, none, "p", 5, "e2"⟩],
      [⟨"https://a", none, none, "p", 5, "e1"⟩]] :
        List (List ServerRecord)).Perm
      [[⟨"https://a", none, none, "p", 5, "e1"⟩],
       [⟨"https://b", none, none, "p", 5, "e2"⟩]] ∧
    merge [[⟨"https://b", none, none, "p", 5, "e2"⟩],
           [⟨"https://a", none, none, "p", 5, "e1"⟩]] ≠
      merge [[⟨"https://a", none, none, "p", 5, "e1"⟩],
             [⟨"https://b", none, none, "p", 5, "e2"⟩]] :=
  ⟨List.Perm.swap _ _ _, by decide⟩

/-- Counterexample to C1 as stated: on a trace that accumulates one
record and then suffers a transport error, the promise rejects (it does
not resolve with the accumulated list), and the orchestrator's catch
yields the empty list, discarding the accumulated record. -/
theorem C1_counterexample :
    queryRelay "sub1"
        [ConnEvent.wsOpen,
         ConnEvent.wsMessage (some (.arr [.str "EVENT", .str "sub1",
           .obj [("tags", .arr [.arr [.str "d", .str "https://x.example"]]),
                 ("pubkey", .str "pk"), ("created_at", .num 7),
                 ("id", .str "e1")]])),
         ConnEvent.wsError "read ECONNRESET"] =
      { servers := [⟨"https://x.example", Json.null, Json.null,
                     Json.str "pk", Json.num 7, Json.str "e1"⟩],
        settled := some (.rejected "WebSocket error: read ECONNRESET"),
        timerActive := false } ∧
    orchestratorResult (queryRelay "sub1"
        [ConnEvent.wsOpen,
         ConnEvent.wsMessage (some (.arr [.str "EVENT", .str "sub1",
           .obj [("tags", .arr [.arr [.str "d", .str "https://x.example"]]),
                 ("pubkey", .str "pk"), ("created_at", .num 7),
                 ("id", .str "e1")]])),
         ConnEvent.wsError "read ECONNRESET"]) = some [] :=
  ⟨rfl, rfl⟩

/-- Claim C1 (amended): while the promise is pending, an unsolicited
close finalizes (resolves) it with the list of records accumulated so
far; a transport-level error instead rejects the Relay Client's promise
— discarding the accumulated records — and the orchestrator's catch
converts the rejection into an empty list, so no relay failure
propagates to the caller. -/
theorem C1_error_close_behavior (subId : String) (trace : List ConnEvent)
    (msg : String) (hpend : (queryRelay subId trace).settled = none) :
    (relayStep subId (queryRelay subId trace) ConnEvent.wsClose).settled =
      some (.resolved (queryRelay subId trace).servers) ∧
    (relayStep subId (queryRelay subId trace)
        (ConnEvent.wsError msg)).settled =
      some (.rejected ("WebSocket error: " ++ msg)) ∧
    orchestratorResult (relayStep subId (queryRelay subId trace)
        (ConnEvent.wsError msg)) = some [] := by
  refine ⟨?_, ?_, ?_⟩
  · simp [relayStep, settleWith, hpend]
  · simp [relayStep, settleWith, hpend]
  · simp [relayStep, settleWith, hpend, orchestratorResult]

/-- Witness for the amended C1 at a concrete pending trace. -/
theorem C1_error_close_behavior_witness :
    (relayStep "s" (queryRelay "s" [ConnEvent.wsOpen])
        ConnEvent.wsClose).settled =
      some (.resolved (queryRelay "s" [ConnEvent.wsOpen]).servers) ∧
    (relayStep "s" (queryRelay "s" [ConnEvent.wsOpen])
        (ConnEvent.wsError "boom")).settled =
      some (.rejected ("WebSocket error: " ++ "boom")) ∧
    orchestratorResult (relayStep "s" (queryRelay "s" [ConnEvent.wsOpen])
        (ConnEvent.wsError "boom")) = some [] :=
  C1_error_close_behavior "s" [ConnEvent.wsOpen] "boom" rfl

/-- Batching loop invariant, by strong induction on the list length. -/
theorem chunksOf_spec (c : Nat) (hc : 0 < c) :
    ∀ (n : Nat) (l : List String), l.length ≤ n →
      (chunksOf c l).flatten = l ∧ ∀ ch ∈ chunksOf c l, ch.length ≤ c := by
  intro n
  induction n with
  | zero =>
    intro l hl
    have hnil : l = [] := List.eq_nil_of_length_eq_zero (Nat.le_zero.mp hl)
    subst hnil
    rw [show chunksOf c [] = [] from by unfold chunksOf; simp]
    exact ⟨rfl, fun ch hch => absurd hch (List.not_mem_nil ch)⟩
  | succ n ih =>
    intro l hl
    by_cases hnil : l = []
    · subst hnil
      rw [show chunksOf c [] = [] from by unfold chunksOf; simp]
      exact ⟨rfl, fun ch hch => absurd hch (List.not_mem_nil ch)⟩
    · have hstep : chunksOf c l = l.take c :: chunksOf c (l.drop c) := by
        rw [chunksOf]
        rw [dif_neg]
        simp [hnil, Nat.pos_iff_ne_zero.mp hc]
      have hdrop : (l.drop c).length ≤ n := by
        rw [List.length_drop]
        have h1 : 0 < l.length := List.length_pos.mpr hnil
        omega
      rcases ih (l.drop c) hdrop with ⟨hflat, hlen⟩
      constructor
      · rw [hstep, List.flatten_cons, hflat, List.take_append_drop]
      · intro ch hch
        rw [hstep] at hch
        rcases List.mem_cons.mp hch with rfl | h2
        · exact List.length_take_le c l
        · exact hlen ch h2

/-- Claim C9: for every relay list and positive concurrency limit, the
batching loop partitions the list into consecutive chunks — their
concatenation restores the list, and the loop awaits each whole chunk
before starting the next — of size at most the limit, so never more than
`concurrencyLimit` Relay Client operations are pending simultaneously.
The program instantiates the limit with `concurrency = 6`. -/
theorem C9_chunked_concurrency (c : Nat) (l : List String) (hc : 0 < c) :
    (chunksOf c l).flatten = l ∧ ∀ ch ∈ chunksOf c l, ch.length ≤ c :=
  chunksOf_spec c hc l.length l (le_refl _)

/-- Witness for C9 at the program's concurrency limit and a concrete
eight-relay list. -/
theorem C9_chunked_concurrency_witness :
    (chunksOf concurrency
        ["r1", "r2", "r3", "r4", "r5", "r6", "r7", "r8"]).flatten =
      ["r1", "r2", "r3", "r4", "r5", "r6", "r7", "r8"] ∧
    ∀ ch ∈ chunksOf concurrency ["r1", "r2", "r3", "r4", "r5", "r6", "r7",
        "r8"], ch.length ≤ concurrency :=
  C9_chunked_concurrency concurrency
    ["r1", "r2", "r3", "r4", "r5", "r6", "r7", "r8"] (by decide)

/-- Claim C10: the session's relay list always begins with the four fixed
core relays and carries at most 16 sampled relays — each a wss:// string
not among the core relays — so at most 20 relays are searched; when the
directory bootstrap fails, the relay list is exactly the core relays. -/
theorem C10_relay_list (online : List Json) (shuffled : List String)
    (hs : shuffled.Perm (additionalRelays online)) :
    (allRelaysOf shuffled).take 4 = coreRelays ∧
    (allRelaysOf shuffled).length ≤ 20 ∧
    (∀ r ∈ (allRelaysOf shuffled).drop 4,
      jsStartsWith r "wss://" = true ∧ r ∉ coreRelays) ∧
    allRelaysFallback = coreRelays := by
  refine ⟨?_, ?_, ?_, rfl⟩
  · rw [show (4 : Nat) = coreRelays.length from rfl]
    exact List.take_left coreRelays (shuffled.take maxAdditional)
  · unfold allRelaysOf
    rw [List.length_append]
    have h1 : coreRelays.length = 4 := rfl
    have h2 : (shuffled.take maxAdditional).length ≤ 16 := by
      have := List.length_take_le maxAdditional shuffled
      simpa [maxAdditional] using this
    omega
  · intro r hr
    unfold allRelaysOf at hr
    rw [show (4 : Nat) = coreRelays.length from rfl,
        List.drop_left coreRelays (shuffled.take maxAdditional)] at hr
    have hr1 : r ∈ shuffled := List.mem_of_mem_take hr
    have hr2 : r ∈ additionalRelays online := hs.subset hr1
    unfold additionalRelays at hr2
    rcases List.mem_filter.mp hr2 with ⟨_, hcond⟩
    rw [Bool.and_eq_true] at hcond
    refine ⟨hcond.1, ?_⟩
    intro hmem
    have hcontains : coreRelays.contains r = true := by
      rw [List.contains_eq_any_beq]
      exact List.any_eq_true.mpr ⟨r, hmem, by simp⟩
    rw [hcontains] at hcond
    exact Bool.false_ne_true hcond.2

/-- Witness for C10 at a concrete directory response containing one
eligible wss relay and one non-relay string. -/
theorem C10_relay_list_witness :
    (allRelaysOf (additionalRelays
        [.str "wss://extra.example", .str "https://not-a-relay.example"])).take
        4 = coreRelays ∧
    (allRelaysOf (additionalRelays
        [.str "wss://extra.example",
         .str "https://not-a-relay.example"])).length ≤ 20 ∧
    (∀ r ∈ (allRelaysOf (additionalRelays
        [.str "wss://extra.example", .str "https://not-a-relay.example"])).drop
        4, jsStartsWith r "wss://" = true ∧ r ∉ coreRelays) ∧
    allRelaysFallback = coreRelays :=
  C10_relay_list [.str "wss://extra.example", .str "https://not-a-relay.example"]
    (additionalRelays
      [.str "wss://extra.example", .str "https://not-a-relay.example"])
    (List.Perm.refl _)

end Blossom
